import Mathlib

/-!
Shallow embedding of the NdCat library (unimodular "cat" matrices, block and
Laplace extension algorithms, and the modular cat-map / period engine),
together with proofs checking the natural-language specification against it.

Conventions: Python/numpy integers are modelled as `ℤ` (the spec's data model
fixes no machine width); numpy 2-D arrays of known square shape are
`Matrix (Fin n) (Fin n) ℤ`; Python's `%` on a positive modulus coincides with
`Int.emod`; fallible operations return `Except CatError`.
-/

namespace NdCat

/-- Error taxonomy of the library (spec §7): `ValueError`s raised by the code,
tagged by their role; `sizeMismatch` carries the required and actual counts
that the message `"Required size: {required}, Actual size: {actual}"` reports,
and `unknownAlgorithm` carries the value interpolated into
`"Invalid algorithm {algorithm}"`. -/
inductive PyVal where
  | int (n : ℤ)
  | str (s : String)
deriving DecidableEq

inductive CatError where
  | invalidDimension
  | sizeMismatch (required actual : ℕ)
  | invalidMatrix
  | unknownAlgorithm (name : PyVal)
  | typeError
deriving DecidableEq

/-! ### Period/Mapping engine (`src/ndcat/map.py`) -/

/-- `CatMap.mapping` (map.py:70-87): `res = numpy.matmul(self._matrix, data) % size`,
acting on one coordinate column vector. Python's `%` on a positive modulus is
`Int.emod`. -/
def catMapping {d : ℕ} (A : Matrix (Fin d) (Fin d) ℤ) (size : ℕ) (x : Fin d → ℤ) :
    Fin d → ℤ :=
  fun i => (∑ j, A i j * x j) % (size : ℤ)

/-- `CatMap.mapping` with a caller-supplied `out` buffer (map.py:84-85):
`out[...] = res` overwrites every component of the buffer with the result;
the returned value is the buffer's new contents. -/
def catMappingOut {d : ℕ} (A : Matrix (Fin d) (Fin d) ℤ) (size : ℕ)
    (x _old : Fin d → ℤ) : Fin d → ℤ :=
  catMapping A size x

/-- `cube_coord` (map.py:89-104): the full coordinate grid `[0,size)^dim`,
one column vector per grid point, first coordinate varying slowest
(`meshgrid(..., indexing='ij')` flattened row-major). -/
def cubeCoord : (d : ℕ) → (size : ℕ) → List (Fin d → ℤ)
  | 0, _ => [![]]
  | d + 1, size =>
    ((List.range size).map fun v : ℕ => (v : ℤ)).flatMap fun v =>
      (cubeCoord d size).map fun t => Fin.cons v t

/-- The `while` loop of `CatMap.period` (map.py:64-68): starting from
`cur = step^[count] orig`, keep applying `step` and incrementing `count`
until the array equals `orig` again; `fuel` bounds the number of loop tests
(the source loop is unbounded). -/
def periodAux {α : Type} [DecidableEq α] (step : α → α) (orig : α) :
    ℕ → α → ℕ → Option ℕ
  | 0, _, _ => none
  | fuel + 1, cur, count =>
    if cur = orig then some count else periodAux step orig fuel (step cur) (count + 1)

/-- `CatMap.period` (map.py:50-68): enumerate the grid, apply the mapping once,
then re-apply until the image equals the original grid, counting applications. -/
def catPeriod {d : ℕ} (A : Matrix (Fin d) (Fin d) ℤ) (size : ℕ) (fuel : ℕ) :
    Option ℕ :=
  let coord := cubeCoord d size
  let step := fun g : List (Fin d → ℤ) => g.map (catMapping A size)
  periodAux step coord fuel (step coord) 1

/-- The 2-dimensional reference matrix `[[1, 1], [1, 2]]` from the map.py
docstring example. -/
def arnoldMat : Matrix (Fin 2) (Fin 2) ℤ := !![1, 1; 1, 2]

/-! ### Block extension algorithm (`src/ndcat/extension/block.py`) -/

/-- `BlockExtension._diagonal_cat_matrix` (block.py:146-162): the 2×2
unimodular diagonal block built from `(p, q)`. -/
def diagonalCatMatrix (p q : ℤ) : Matrix (Fin 2) (Fin 2) ℤ :=
  if p * q = 0 then !![1, 1; 1, 2] else !![p * q + 1, p; q, 1]

/-- Row-major numpy `reshape` of a flat sequence to an `r × c` block
(block.py:104: `mat.reshape(rows, -1)`, on data of length `r * c`). -/
def reshapeTR (r c : ℕ) (off : List ℤ) : Matrix (Fin r) (Fin c) ℤ :=
  Matrix.of fun i j => off.getD (c * i + j) 0

/-- Reindex a block matrix over `Fin a ⊕ Fin b` into `Fin m` when
`a + b = m`, keeping all entries (the flat layout `numpy.r_`/`numpy.c_`
produce). -/
def sumToFin {a b m : ℕ} (h : a + b = m)
    (A : Matrix (Fin a ⊕ Fin b) (Fin a ⊕ Fin b) ℤ) : Matrix (Fin m) (Fin m) ℤ :=
  Matrix.reindex (finSumFinEquiv.trans (finCongr h)) (finSumFinEquiv.trans (finCongr h)) A

/-- `BlockExtension.extend` (block.py:77-104): place the fresh 2×2 block and
the previous matrix on the diagonal (swapped when `swap_diag`), the supplied
off-diagonal data in one coupling corner and an all-zero block in the other
(which corner holds the data is swapped by `swap_off_diag`); each coupling
block is the flat data reshaped row-major to as many rows as the diagonal
block to its left. Assumes `off` has the `2 * n` elements the source's
`reshape` requires. -/
def blockExtend {n : ℕ} (M : Matrix (Fin n) (Fin n) ℤ) (p q : ℤ)
    (off : List ℤ) (s1 s2 : Bool) : Matrix (Fin (n + 2)) (Fin (n + 2)) ℤ :=
  match s1, s2 with
  | false, false =>
    sumToFin (by omega) (Matrix.fromBlocks (diagonalCatMatrix p q) (reshapeTR 2 n off) 0 M)
  | false, true =>
    sumToFin (by omega) (Matrix.fromBlocks (diagonalCatMatrix p q) 0 (reshapeTR n 2 off) M)
  | true, false =>
    sumToFin (by omega) (Matrix.fromBlocks M (reshapeTR n 2 off) 0 (diagonalCatMatrix p q))
  | true, true =>
    sumToFin (by omega) (Matrix.fromBlocks M 0 (reshapeTR 2 n off) (diagonalCatMatrix p q))

/-- `BlockExtension.check_parameters` (block.py:13-38): `iterations =
(dim-1)//2`, `required = iterations*2 + dim²//2`, `actual = sum(len(seq) for
seq in args)` over the four argument sequences. -/
def blockCheckParameters (dim : ℕ) (diag off : List ℤ) (s1 s2 : List Bool) :
    Except CatError ℕ :=
  if dim ≤ 1 then
    .error .invalidDimension
  else if ((dim - 1) / 2) * 2 + dim ^ 2 / 2
      ≠ diag.length + off.length + s1.length + s2.length then
    .error (.sizeMismatch (((dim - 1) / 2) * 2 + dim ^ 2 / 2)
      (diag.length + off.length + s1.length + s2.length))
  else
    .ok ((dim - 1) / 2)

/-- The `for` loop of `BlockExtension.create` (block.py:71-73): `k` remaining
iterations, current matrix of size `c`; each iteration consumes the next 2
diagonal values, the next `2 * c` off-diagonal values and one flag from each
swap sequence. -/
def blockLoop : (k : ℕ) → (c : ℕ) → Matrix (Fin c) (Fin c) ℤ → List ℤ →
    List ℤ → List Bool → List Bool → (m : ℕ) × Matrix (Fin m) (Fin m) ℤ
  | 0, c, cat, _, _, _, _ => ⟨c, cat⟩
  | k + 1, c, cat, diag, off, s1, s2 =>
    blockLoop k (c + 2)
      (blockExtend cat (diag.getD 0 0) (diag.getD 1 0) (off.take (2 * c))
        (s1.getD 0 false) (s2.getD 0 false))
      (diag.drop 2) (off.drop (2 * c)) (s1.drop 1) (s2.drop 1)

/-- Seed selection and loop of `BlockExtension.create` (block.py:64-75):
`c = (dim + 1) % 2 + 1`; if `c == 1` the seed is `[[1]]`, otherwise the first
two diagonal values are consumed to build the seed block. -/
def blockCreateRaw (dim : ℕ) (diag off : List ℤ) (s1 s2 : List Bool) :
    (m : ℕ) × Matrix (Fin m) (Fin m) ℤ :=
  let iterations := (dim - 1) / 2
  if (dim + 1) % 2 + 1 = 1 then
    blockLoop iterations 1 !![1] diag off s1 s2
  else
    blockLoop iterations 2 (diagonalCatMatrix (diag.getD 0 0) (diag.getD 1 0))
      (diag.drop 2) off s1 s2

/-- `BlockExtension.create` (block.py:40-75): validate the parameter counts,
then run the seed-and-extend loop. -/
def blockCreate (dim : ℕ) (diag off : List ℤ) (s1 s2 : List Bool) :
    Except CatError ((m : ℕ) × Matrix (Fin m) (Fin m) ℤ) :=
  (blockCheckParameters dim diag off s1 s2).map fun _ =>
    blockCreateRaw dim diag off s1 s2

/-! ### Laplace extension algorithm (`src/ndcat/extension/laplace.py`) -/

/-- The candidate matrix assembled by `LaplaceExtension.extend`
(laplace.py:83-93) before the new diagonal entry is solved for: the previous
matrix `M` with a new column inserted at `cl` (filled from `row`), a new row
inserted at `rl` (filled from `col`), and the value `v` at the new cell
`(rl, cl)` (the source first writes the placeholder `0` there).
`Fin.insertNth` places the old entries around the insertion index exactly as
the source's `numpy.r_`/`numpy.c_` band assembly does. -/
def laplaceCandidate {n : ℕ} (M : Matrix (Fin n) (Fin n) ℤ) (row col : Fin n → ℤ)
    (rl cl : Fin (n + 1)) (v : ℤ) : Matrix (Fin (n + 1)) (Fin (n + 1)) ℤ :=
  Matrix.of (rl.insertNth (cl.insertNth v col) fun i => cl.insertNth (row i) (M i))

/-- sympy's `Matrix.cofactor(r, c)` (used at laplace.py:153): signed minor
obtained by deleting row `r` and column `c`. -/
def laplaceCofactor {n : ℕ} (A : Matrix (Fin (n + 1)) (Fin (n + 1)) ℤ)
    (r c : Fin (n + 1)) : ℤ :=
  (-1) ^ ((r : ℕ) + (c : ℕ)) * (A.submatrix r.succAbove c.succAbove).det

/-- `LaplaceExtension.cofactors` (laplace.py:135-154): the cofactor sum along
column `c` excluding row `r`. -/
def laplaceCofactors {n : ℕ} (A : Matrix (Fin (n + 1)) (Fin (n + 1)) ℤ)
    (r c : Fin (n + 1)) : ℤ :=
  ∑ i ∈ Finset.univ.erase r, A i c * laplaceCofactor A i c

/-- `LaplaceExtension.extend` (laplace.py:67-96): build the candidate with
placeholder 0, then set the new diagonal cell to
`(-1)^(row_loc+col_loc) * (1 - cofactors(cat, row_loc, col_loc))`. -/
def laplaceExtend {n : ℕ} (M : Matrix (Fin n) (Fin n) ℤ) (row col : Fin n → ℤ)
    (rl cl : Fin (n + 1)) : Matrix (Fin (n + 1)) (Fin (n + 1)) ℤ :=
  laplaceCandidate M row col rl cl
    ((-1) ^ ((rl : ℕ) + (cl : ℕ))
      * (1 - laplaceCofactors (laplaceCandidate M row col rl cl 0) rl cl))

/-- `LaplaceExtension.check_parameters` (laplace.py:12-37): `iterations =
dim - 1`, `required = (dim-1)*dim + 2*(dim-1)`, `actual` counts every element
of the row and column vectors plus one location per iteration for each of
`rows_loc`, `cols_loc`. -/
def laplaceCheckParameters (dim : ℕ) (rows cols : List (List ℤ))
    (rlocs clocs : List ℕ) : Except CatError ℕ :=
  if dim ≤ 1 then
    .error .invalidDimension
  else if (dim - 1) * dim + 2 * (dim - 1)
      ≠ (rows.map List.length).sum + (cols.map List.length).sum
        + rlocs.length + clocs.length then
    .error (.sizeMismatch ((dim - 1) * dim + 2 * (dim - 1))
      ((rows.map List.length).sum + (cols.map List.length).sum
        + rlocs.length + clocs.length))
  else
    .ok (dim - 1)

/-- The `for` loop of `LaplaceExtension.create` (laplace.py:62-63): `k`
remaining iterations, current matrix of size `c`; iteration `i` consumes
`rows[i]`, `cols[i]`, `rows_loc[i]`, `cols_loc[i]` (vectors read positionally;
locations reduced into range as numpy indexing requires them to be). -/
def laplaceLoop : (k : ℕ) → (c : ℕ) → Matrix (Fin c) (Fin c) ℤ →
    List (List ℤ) → List (List ℤ) → List ℕ → List ℕ →
    (m : ℕ) × Matrix (Fin m) (Fin m) ℤ
  | 0, c, cat, _, _, _, _ => ⟨c, cat⟩
  | k + 1, c, cat, rows, cols, rlocs, clocs =>
    laplaceLoop k (c + 1)
      (laplaceExtend cat (fun i => (rows.headD []).getD i 0)
        (fun i => (cols.headD []).getD i 0)
        ⟨rlocs.headD 0 % (c + 1), Nat.mod_lt _ c.succ_pos⟩
        ⟨clocs.headD 0 % (c + 1), Nat.mod_lt _ c.succ_pos⟩)
      rows.tail cols.tail rlocs.tail clocs.tail

/-- `LaplaceExtension.create` (laplace.py:39-65): validate the counts, then
extend the 1×1 seed `[[1]]` once per iteration. -/
def laplaceCreate (dim : ℕ) (rows cols : List (List ℤ)) (rlocs clocs : List ℕ) :
    Except CatError ((m : ℕ) × Matrix (Fin m) (Fin m) ℤ) :=
  (laplaceCheckParameters dim rows cols rlocs clocs).map fun its =>
    laplaceLoop its 1 !![1] rows cols rlocs clocs

/-! ### Python slicing and `split_sequence` -/

/-- Resolve a Python slice bound on a sequence of length `len`: negative
bounds count from the end (clamped below at 0, and `-0` is `0`), non-negative
bounds are clamped above at `len`. -/
def pyIdx (len : ℕ) (i : ℤ) : ℕ :=
  if i < 0 then (len + i).toNat else min i.toNat len

/-- Python `l[a:b]`. -/
def pySlice {α : Type} (l : List α) (a b : ℤ) : List α :=
  (l.take (pyIdx l.length b)).drop (pyIdx l.length a)

/-- Python `l[a:]`. -/
def pySliceFrom {α : Type} (l : List α) (a : ℤ) : List α :=
  l.drop (pyIdx l.length a)

/-- `BlockExtension.split_sequence` (block.py:129-144):
`data[:diag_size], data[diag_size : dim**2 // 2],
data[-2*iterations : -iterations], data[-iterations:]`. -/
def blockSplitSequence {α : Type} (dim : ℕ) (data : List α) :
    List α × List α × List α × List α :=
  (pySlice data 0 ((dim / 2) * 2 : ℕ),
   pySlice data ((dim / 2) * 2 : ℕ) (dim ^ 2 / 2 : ℕ),
   pySlice data (-(2 * ((dim - 1) / 2 : ℕ) : ℤ)) (-(((dim - 1) / 2 : ℕ) : ℤ)),
   pySliceFrom data (-(((dim - 1) / 2 : ℕ) : ℤ)))

/-- `LaplaceExtension.split_sequence` (laplace.py:118-133):
`source[:rows_size], source[rows_size : 2*rows_size],
source[-2*iterations : -iterations], source[-iterations:]`. -/
def laplaceSplitSequence {α : Type} (dim : ℕ) (source : List α) :
    List α × List α × List α × List α :=
  (pySlice source 0 ((dim - 1) * dim / 2 : ℕ),
   pySlice source ((dim - 1) * dim / 2 : ℕ) (2 * ((dim - 1) * dim / 2) : ℕ),
   pySlice source (-(2 * (dim - 1 : ℕ) : ℤ)) (-((dim - 1 : ℕ) : ℤ)),
   pySliceFrom source (-((dim - 1 : ℕ) : ℤ)))

/-! ### Dispatch front door (`src/ndcat/generator.py`, `src/ndcat/matrix.py`) -/

/-- The parameter pack forwarded through `*args` to the selected extension
algorithm's `create`. -/
inductive CatParams where
  | block (diag off : List ℤ) (s1 s2 : List Bool)
  | laplace (rows cols : List (List ℤ)) (rlocs clocs : List ℕ)

/-- The membership test `algorithm in _expansion_dict` (generator.py:36):
only the strings `"block"` and `"laplace"` are keys; any other value
(including an integer) is not. -/
def expansionDictMem : PyVal → Bool
  | .str s => s = "block" || s = "laplace"
  | _ => false

/-- `CatGenerator.create` (generator.py:19-39), signature
`create(dim, algorithm, *args)`: if the value in the `algorithm` slot is a
registered key, dispatch to that extension's `create` with the value in the
`dim` slot; otherwise raise `"Invalid algorithm {algorithm}"`. -/
def catGeneratorCreate (dim algorithm : PyVal) (params : CatParams) :
    Except CatError ((m : ℕ) × Matrix (Fin m) (Fin m) ℤ) :=
  if expansionDictMem algorithm then
    match algorithm, dim, params with
    | .str "block", .int d, .block diag off s1 s2 =>
      blockCreate d.toNat diag off s1 s2
    | .str "laplace", .int d, .laplace rows cols rlocs clocs =>
      laplaceCreate d.toNat rows cols rlocs clocs
    | _, _, _ => .error .typeError
  else
    .error (.unknownAlgorithm algorithm)

/-- `CatMatrix.create` (matrix.py:136-149): calls
`CatGenerator.create(algorithm, dim, *args)` — the algorithm string in the
generator's `dim` slot and the integer dimension in its `algorithm` slot, as
written at matrix.py:149 — then wraps the result through the constructor,
whose `matrix` setter admits the array only if it is a cat matrix. -/
def catMatrixCreate (dim : ℕ) (algorithm : String) (params : CatParams) :
    Except CatError ((m : ℕ) × Matrix (Fin m) (Fin m) ℤ) :=
  (catGeneratorCreate (.str algorithm) (.int dim) params).bind fun r =>
    if r.snd.det = 1 then .ok r else .error .invalidMatrix

/-! ### Untyped (list-of-rows) embedding for the matrix wrapper's `extend`
(`src/ndcat/matrix.py`), which can store arrays of any shape -/

/-- Remove index `j` from a row (used by first-row Laplace expansion). -/
def dropIdx {α : Type} (j : ℕ) (l : List α) : List α :=
  l.take j ++ l.drop (j + 1)

/-- First-row Laplace expansion of the determinant of a list-of-rows square
matrix; `fuel` is the row count (structural recursion so that the definition
evaluates). -/
def detLAux : ℕ → List (List ℤ) → ℤ
  | _, [] => 1
  | 0, _ :: _ => 0
  | fuel + 1, r :: rs =>
    ((List.range r.length).map fun j =>
      (-1) ^ j * r.getD j 0 * detLAux fuel (rs.map (dropIdx j))).sum

def detL (a : List (List ℤ)) : ℤ := detLAux a.length a

/-- `CatMatrix.is_cat` (matrix.py:97-115) on a list-of-rows array: 2-D and
square with integer entries and determinant 1. Entries are integers by type,
and the determinant test is exact integer arithmetic, which on integer input
is what the source's float-tolerance comparison is specified to decide
(spec §4.1, §9). -/
def isCatL (a : List (List ℤ)) : Bool :=
  match a with
  | [] => false
  | r :: _ => (a.all fun s => s.length = r.length) && (r.length = a.length)
      && (detL a = 1)

/-- `BlockExtension._diagonal_cat_matrix` on list-of-rows arrays. -/
def diagonalCatL (p q : ℤ) : List (List ℤ) :=
  if p * q = 0 then [[1, 1], [1, 2]] else [[p * q + 1, p], [q, 1]]

/-- Row-major numpy `reshape(r, -1)` of a flat sequence of length `r * c`. -/
def reshapeL (r c : ℕ) (l : List ℤ) : List (List ℤ) :=
  (List.range r).map fun i => (List.range c).map fun j => l.getD (c * i + j) 0

/-- `numpy.c_`: row-wise concatenation of two blocks. -/
def zipCols (a b : List (List ℤ)) : List (List ℤ) :=
  List.zipWith (fun r s => r ++ s) a b

/-- `BlockExtension.extend` (block.py:77-104) on raw list-of-rows arrays,
keeping numpy's actual shape behaviour: each coupling block is the flat data
(or an equally long zero block) reshaped to as many rows as the diagonal
block beside it, however many columns that yields. -/
def blockExtendL (matrix : List (List ℤ)) (diag off : List ℤ) (s1 s2 : Bool) :
    List (List ℤ) :=
  let cat1 := diagonalCatL (diag.getD 0 0) (diag.getD 1 0)
  let cat2 := matrix
  let zeros : List ℤ := List.replicate off.length 0
  let c1 := if s1 then cat2 else cat1
  let c2 := if s1 then cat1 else cat2
  let m1 := if s2 then zeros else off
  let m2 := if s2 then off else zeros
  zipCols c1 (reshapeL c1.length (off.length / c1.length) m1)
    ++ zipCols (reshapeL c2.length (off.length / c2.length) m2) c2

/-- `CatMatrix.extend` (matrix.py:151-159) for algorithm `"block"`:
`self._matrix = CatGenerator.extend(algorithm, self._matrix, *args)` assigns
the generator's result to the `_matrix` field directly — it does not go
through the `matrix` property setter, so no `is_cat` check is applied to the
new array before it is stored. The returned value is the array stored. -/
def catMatrixExtendBlock (cur : List (List ℤ)) (diag off : List ℤ)
    (s1 s2 : Bool) : List (List ℤ) :=
  blockExtendL cur diag off s1 s2

end NdCat

namespace NdCat

/-! ### Lemmas about the grid and the period loop -/

theorem cubeCoord_sound {d size : ℕ} {x : Fin d → ℤ} (hx : x ∈ cubeCoord d size) :
    ∀ i, 0 ≤ x i ∧ x i < size := by
  induction d with
  | zero => exact fun i => i.elim0
  | succ d ih =>
    simp only [cubeCoord, List.mem_flatMap, List.mem_map] at hx
    obtain ⟨v, hv, t, ht, rfl⟩ := hx
    simp only [List.mem_map, List.mem_range] at hv
    obtain ⟨m, hm, rfl⟩ := hv
    intro i
    refine Fin.cases ?_ ?_ i
    · simp only [Fin.cons_zero]
      exact ⟨Int.natCast_nonneg m, by exact_mod_cast hm⟩
    · intro j
      simpa using ih ht j

theorem cubeCoord_complete {d size : ℕ} {x : Fin d → ℤ}
    (hx : ∀ i, 0 ≤ x i ∧ x i < size) : x ∈ cubeCoord d size := by
  induction d with
  | zero =>
    simp only [cubeCoord, List.mem_singleton]
    funext i
    exact i.elim0
  | succ d ih =>
    simp only [cubeCoord, List.mem_flatMap, List.mem_map]
    refine ⟨x 0, ⟨(x 0).toNat, ?_, ?_⟩, Fin.tail x, ih fun j => hx j.succ, ?_⟩
    · rw [List.mem_range]
      have h0 := hx 0
      omega
    · have h0 := (hx 0).1
      simp [Int.toNat_of_nonneg h0]
    · exact Fin.cons_self_tail x

theorem list_map_eq_self {α : Type} {f : α → α} {l : List α} (h : l.map f = l) :
    ∀ x ∈ l, f x = x := by
  induction l with
  | nil => intro x hx; cases hx
  | cons a l ih =>
    simp only [List.map_cons, List.cons.injEq] at h
    intro x hx
    rcases List.mem_cons.mp hx with rfl | hx
    · exact h.1
    · exact ih h.2 x hx

theorem map_iterate {α : Type} (f : α → α) (k : ℕ) (l : List α) :
    (fun g : List α => g.map f)^[k] l = l.map f^[k] := by
  induction k generalizing l with
  | zero => simp
  | succ k ih =>
    rw [Function.iterate_succ_apply, ih, List.map_map, Function.iterate_succ]

theorem periodAux_spec {α : Type} [DecidableEq α] (step : α → α) (orig : α) :
    ∀ (fuel : ℕ) (count k : ℕ),
      (∀ j, 1 ≤ j → j < count → step^[j] orig ≠ orig) → 1 ≤ count →
      periodAux step orig fuel (step^[count] orig) count = some k →
      (count ≤ k ∧ step^[k] orig = orig ∧
        ∀ j, 1 ≤ j → j < k → step^[j] orig ≠ orig) := by
  intro fuel
  induction fuel with
  | zero => intro count k _ _ h; simp [periodAux] at h
  | succ fuel ih =>
    intro count k hmin hcount h
    rw [periodAux] at h
    by_cases heq : step^[count] orig = orig
    · rw [if_pos heq] at h
      obtain rfl : count = k := by simpa using h
      exact ⟨le_refl _, heq, hmin⟩
    · rw [if_neg heq] at h
      rw [← Function.iterate_succ_apply' step count orig] at h
      have := ih (count + 1) k
        (by
          intro j hj1 hj2
          rcases Nat.lt_or_ge j count with hlt | hge
          · exact hmin j hj1 hlt
          · obtain rfl : j = count := by omega
            exact heq)
        (by omega) h
      exact ⟨by omega, this.2.1, this.2.2⟩

end NdCat

namespace NdCat

/-! ### Range of the mapping -/

theorem catMapping_range_aux {d : ℕ} (A : Matrix (Fin d) (Fin d) ℤ) {size : ℕ}
    (hs : 1 ≤ size) (x : Fin d → ℤ) (i : Fin d) :
    0 ≤ catMapping A size x i ∧ catMapping A size x i < size := by
  have h0 : (0 : ℤ) < (size : ℤ) := by exact_mod_cast hs
  exact ⟨Int.emod_nonneg _ (by omega), Int.emod_lt_of_pos _ h0⟩

/-- C10. For every `size ≥ 1` and arbitrary integer input data, every component
of `CatMap.mapping`'s result lies in `[0, size)` (Python `%` is a mathematical,
non-negative-remainder modulus), and the contents written into a caller-supplied
`out` buffer are that same result. -/
theorem mapping_result_in_range :
    ∀ (d : ℕ) (A : Matrix (Fin d) (Fin d) ℤ) (size : ℕ) (x : Fin d → ℤ),
      1 ≤ size →
      (∀ i, 0 ≤ catMapping A size x i ∧ catMapping A size x i < size) ∧
      (∀ old : Fin d → ℤ, catMappingOut A size x old = catMapping A size x) := by
  intro d A size x hs
  exact ⟨catMapping_range_aux A hs x, fun _ => rfl⟩

theorem mapping_result_in_range_witness :
    (0 ≤ catMapping arnoldMat 5 ![-7, 11] 0 ∧ catMapping arnoldMat 5 ![-7, 11] 0 < 5) ∧
    catMappingOut arnoldMat 5 ![-7, 11] ![0, 0] = catMapping arnoldMat 5 ![-7, 11] :=
  ⟨(mapping_result_in_range 2 arnoldMat 5 ![-7, 11] (by decide)).1 0,
   (mapping_result_in_range 2 arnoldMat 5 ![-7, 11] (by decide)).2 ![0, 0]⟩

/-! ### Injectivity of the mapping on the grid -/

theorem catMapping_inj_aux {d : ℕ} {A : Matrix (Fin d) (Fin d) ℤ} {size : ℕ}
    (hdet : A.det = 1) {x y : Fin d → ℤ}
    (hx : ∀ i, 0 ≤ x i ∧ x i < size) (hy : ∀ i, 0 ≤ y i ∧ y i < size)
    (h : catMapping A size x = catMapping A size y) : x = y := by
  have hdvd : ∀ i, (size : ℤ) ∣ A.mulVec (fun j => y j - x j) i := by
    intro i
    have hi : (∑ j, A i j * x j) % (size : ℤ) = (∑ j, A i j * y j) % (size : ℤ) :=
      congrFun h i
    have hmod : (size : ℤ) ∣ (∑ j, A i j * y j) - (∑ j, A i j * x j) :=
      Int.ModEq.dvd hi
    have hrw : A.mulVec (fun j => y j - x j) i
        = (∑ j, A i j * y j) - (∑ j, A i j * x j) := by
      simp [Matrix.mulVec, Matrix.dotProduct, mul_sub, Finset.sum_sub_distrib]
    rw [hrw]
    exact hmod
  have hdvdu : ∀ k, (size : ℤ) ∣ y k - x k := by
    intro k
    have hrec : y k - x k
        = (Matrix.adjugate A).mulVec (A.mulVec (fun j => y j - x j)) k := by
      rw [Matrix.mulVec_mulVec, Matrix.adjugate_mul, hdet, one_smul,
        Matrix.one_mulVec]
    have hsum : (Matrix.adjugate A).mulVec (A.mulVec (fun j => y j - x j)) k
        = ∑ i, Matrix.adjugate A k i * A.mulVec (fun j => y j - x j) i := rfl
    rw [hrec, hsum]
    exact Finset.dvd_sum fun i _ => Dvd.dvd.mul_left (hdvd i) _
  funext k
  have hk := hdvdu k
  have hxk := hx k
  have hyk := hy k
  have hzero : y k - x k = 0 :=
    Int.eq_zero_of_abs_lt_dvd hk (abs_lt.mpr ⟨by omega, by omega⟩)
  omega

/-- C4. For every square integer matrix of determinant 1 and every `size ≥ 1`,
`x ↦ (A·x) mod size` is injective on the grid `[0,size)^dim`, hence a bijection
of the grid onto itself. -/
theorem mapping_injective_on_grid :
    ∀ (d : ℕ) (A : Matrix (Fin d) (Fin d) ℤ) (size : ℕ),
      A.det = 1 → 1 ≤ size →
      (∀ x y : Fin d → ℤ, (∀ i, 0 ≤ x i ∧ x i < size) →
        (∀ i, 0 ≤ y i ∧ y i < size) →
        catMapping A size x = catMapping A size y → x = y) ∧
      Set.BijOn (catMapping A size)
        {x : Fin d → ℤ | ∀ i, 0 ≤ x i ∧ x i < size}
        {x : Fin d → ℤ | ∀ i, 0 ≤ x i ∧ x i < size} := by
  intro d A size hdet hs
  refine ⟨fun x y hx hy h => catMapping_inj_aux hdet hx hy h, ?_⟩
  have hfin : ({x : Fin d → ℤ | ∀ i, 0 ≤ x i ∧ x i < size}).Finite := by
    have hsub : {x : Fin d → ℤ | ∀ i, 0 ≤ x i ∧ x i < size}
        ⊆ Set.pi Set.univ fun _ : Fin d => Set.Ico (0 : ℤ) size := by
      intro x hx i _
      exact ⟨(hx i).1, (hx i).2⟩
    exact (Set.Finite.pi fun _ => Set.finite_Ico _ _).subset hsub
  have hmaps : Set.MapsTo (catMapping A size)
      {x : Fin d → ℤ | ∀ i, 0 ≤ x i ∧ x i < size}
      {x : Fin d → ℤ | ∀ i, 0 ≤ x i ∧ x i < size} :=
    fun x _ => catMapping_range_aux A hs x
  exact (Set.Finite.injOn_iff_bijOn_of_mapsTo hfin hmaps).mp
    fun x hx y hy h => catMapping_inj_aux hdet hx hy h

theorem mapping_injective_on_grid_witness :
    Matrix.det arnoldMat = 1 ∧ (1 : ℕ) ≤ 5 ∧ (![1, 2] : Fin 2 → ℤ) = ![1, 2] :=
  ⟨by simp [arnoldMat, Matrix.det_fin_two_of], by omega,
    (mapping_injective_on_grid 2 arnoldMat 5
      (by simp [arnoldMat, Matrix.det_fin_two_of]) (by omega)).1
      ![1, 2] ![1, 2] (by decide) (by decide) rfl⟩

end NdCat

namespace NdCat

/-! ### Period correctness -/

/-- C3. Whenever the `period` loop returns (within `fuel` loop tests) the value
`k`, then `k` is the smallest positive integer such that applying the modular
mapping `k` times returns every point of the full grid `[0,size)^dim` to
itself; in particular, for the matrix `[[1,1],[1,2]]` and `size = 5` the loop
returns `10`. -/
theorem period_least_full_grid_return :
    (∀ (d : ℕ) (A : Matrix (Fin d) (Fin d) ℤ) (size fuel k : ℕ),
      catPeriod A size fuel = some k →
      0 < k ∧
      (∀ x : Fin d → ℤ, (∀ i, 0 ≤ x i ∧ x i < size) →
        (catMapping A size)^[k] x = x) ∧
      (∀ j, 0 < j → j < k →
        ∃ x : Fin d → ℤ, (∀ i, 0 ≤ x i ∧ x i < size) ∧
          (catMapping A size)^[j] x ≠ x)) ∧
    catPeriod arnoldMat 5 12 = some 10 := by
  constructor
  · intro d A size fuel k h
    rw [catPeriod] at h
    rw [show (fun g : List (Fin d → ℤ) => g.map (catMapping A size)) (cubeCoord d size)
        = (fun g : List (Fin d → ℤ) => g.map (catMapping A size))^[1] (cubeCoord d size)
      from congrFun (Function.iterate_one _).symm (cubeCoord d size)] at h
    obtain ⟨h1k, hfix, hmin⟩ :=
      periodAux_spec _ (cubeCoord d size) fuel 1 k (by omega) le_rfl h
    rw [map_iterate] at hfix
    refine ⟨by omega, ?_, ?_⟩
    · intro x hx
      exact list_map_eq_self hfix x (cubeCoord_complete hx)
    · intro j hj0 hjk
      by_contra hcon
      push_neg at hcon
      have hall : ∀ x ∈ cubeCoord d size, (catMapping A size)^[j] x = x := by
        intro x hx
        exact hcon x (cubeCoord_sound hx)
      have : (fun g : List (Fin d → ℤ) => g.map (catMapping A size))^[j]
          (cubeCoord d size) = cubeCoord d size := by
        rw [map_iterate]
        calc (cubeCoord d size).map (catMapping A size)^[j]
            = (cubeCoord d size).map id := List.map_congr_left fun x hx => hall x hx
          _ = cubeCoord d size := List.map_id _
      exact hmin j (by omega) hjk this
  · decide

theorem period_least_full_grid_return_witness :
    (catMapping arnoldMat 5)^[10] ![0, 1] = ![0, 1] :=
  (period_least_full_grid_return.1 2 arnoldMat 5 12 10
    period_least_full_grid_return.2).2.1 ![0, 1] (by decide)

end NdCat

namespace NdCat

/-! ### Block extension: determinant preservation -/

theorem det_diagonalCatMatrix (p q : ℤ) : (diagonalCatMatrix p q).det = 1 := by
  rw [diagonalCatMatrix]
  split
  · rw [Matrix.det_fin_two_of]
    norm_num
  · rw [Matrix.det_fin_two_of]
    ring

theorem det_sumToFin {a b m : ℕ} (h : a + b = m)
    (A : Matrix (Fin a ⊕ Fin b) (Fin a ⊕ Fin b) ℤ) :
    (sumToFin h A).det = A.det :=
  Matrix.det_reindex_self _ _

theorem blockExtend_det {n : ℕ} (M : Matrix (Fin n) (Fin n) ℤ) (p q : ℤ)
    (off : List ℤ) (s1 s2 : Bool) (hdet : M.det = 1) :
    (blockExtend M p q off s1 s2).det = 1 := by
  cases s1 <;> cases s2 <;>
    simp [blockExtend, det_sumToFin, Matrix.det_fromBlocks_zero₂₁,
      Matrix.det_fromBlocks_zero₁₂, det_diagonalCatMatrix, hdet]

theorem blockLoop_det :
    ∀ (k c : ℕ) (cat : Matrix (Fin c) (Fin c) ℤ) (diag off : List ℤ)
      (s1 s2 : List Bool), cat.det = 1 →
      ((blockLoop k c cat diag off s1 s2).snd).det = 1 := by
  intro k
  induction k with
  | zero =>
    intro c cat _ _ _ _ h
    simpa [blockLoop] using h
  | succ k ih =>
    intro c cat diag off s1 s2 h
    simp only [blockLoop]
    exact ih _ _ _ _ _ _ (blockExtend_det _ _ _ _ _ _ h)

/-- C2. `BlockExtension.extend` applied to any determinant-1 matrix, any 2×2
block from the diagonal-block rule and any off-diagonal data yields a
determinant-1 matrix under all four swap-flag settings (one coupling corner is
always all zeros), and `BlockExtension.create` with parameters of the required
combined length returns a matrix of determinant exactly 1. -/
theorem block_construction_unimodular :
    (∀ (n : ℕ) (M : Matrix (Fin n) (Fin n) ℤ) (p q : ℤ) (off : List ℤ)
      (s1 s2 : Bool), M.det = 1 → (blockExtend M p q off s1 s2).det = 1) ∧
    (∀ (dim : ℕ) (diag off : List ℤ) (s1 s2 : List Bool), 2 ≤ dim →
      diag.length + off.length + s1.length + s2.length
        = ((dim - 1) / 2) * 2 + dim ^ 2 / 2 →
      blockCreate dim diag off s1 s2 = .ok (blockCreateRaw dim diag off s1 s2) ∧
      ((blockCreateRaw dim diag off s1 s2).snd).det = 1) := by
  constructor
  · intro n M p q off s1 s2 h
    exact blockExtend_det M p q off s1 s2 h
  · intro dim diag off s1 s2 hdim hlen
    constructor
    · rw [blockCreate, blockCheckParameters, if_neg (by omega), if_neg (by omega)]
      rfl
    · rw [blockCreateRaw]
      by_cases hpar : (dim + 1) % 2 + 1 = 1
      · rw [if_pos hpar]
        exact blockLoop_det _ _ _ _ _ _ _ (by rw [Matrix.det_fin_one_of])
      · rw [if_neg hpar]
        exact blockLoop_det _ _ _ _ _ _ _ (det_diagonalCatMatrix _ _)

theorem block_construction_unimodular_witness :
    (Matrix.det arnoldMat = 1 ∧
      (blockExtend arnoldMat 1 1 [3, 4, 5, 6] true true).det = 1) ∧
    (blockCreate 2 [5, 7] [] [] [] = .ok (blockCreateRaw 2 [5, 7] [] [] []) ∧
      ((blockCreateRaw 2 [5, 7] [] [] []).snd).det = 1) :=
  ⟨⟨by simp [arnoldMat, Matrix.det_fin_two_of],
    block_construction_unimodular.1 2 arnoldMat 1 1 [3, 4, 5, 6] true true
      (by simp [arnoldMat, Matrix.det_fin_two_of])⟩,
   block_construction_unimodular.2 2 [5, 7] [] [] [] (by omega) (by decide)⟩

/-! ### Seed parity of the block construction -/

/-- C5 counterexample. At the even dimension 2 (zero iterations, so `create`
returns its seed) the seed is the 2×2 diagonal-rule block built from the first
two `diag` values, not the 1×1 seed `[[1]]` the claim asserts for even
dimensions. -/
theorem block_seed_parity_counterexample :
    (2 : ℕ) % 2 = 0 ∧
    blockCreateRaw 2 [5, 7] [] [] [] = ⟨2, diagonalCatMatrix 5 7⟩ ∧
    (blockCreateRaw 2 [5, 7] [] [] []).fst ≠ 1 :=
  ⟨rfl, rfl, by decide⟩

/-- C5 amended. In `BlockExtension.create`, when `dim` is odd the construction
starts from the 1×1 seed `[[1]]` (consuming no diag values for the seed), and
when `dim` is even the first 2 values of `diag` are consumed as `(p, q)` to
build a 2×2 seed block via the diagonal-block rule. -/
theorem block_seed_parity_amended :
    ∀ (dim : ℕ) (diag off : List ℤ) (s1 s2 : List Bool), 2 ≤ dim →
      (dim % 2 = 1 →
        blockCreateRaw dim diag off s1 s2
          = blockLoop ((dim - 1) / 2) 1 !![1] diag off s1 s2) ∧
      (dim % 2 = 0 →
        blockCreateRaw dim diag off s1 s2
          = blockLoop ((dim - 1) / 2) 2
              (diagonalCatMatrix (diag.getD 0 0) (diag.getD 1 0))
              (diag.drop 2) off s1 s2) := by
  intro dim diag off s1 s2 _
  constructor
  · intro hodd
    rw [blockCreateRaw, if_pos (by omega)]
  · intro heven
    rw [blockCreateRaw, if_neg (by omega)]

theorem block_seed_parity_amended_witness :
    (blockCreateRaw 3 [4, 5] [6, 7] [true] [false]
      = blockLoop 1 1 !![1] [4, 5] [6, 7] [true] [false]) ∧
    (blockCreateRaw 2 [5, 7] [] [] []
      = blockLoop 0 2 (diagonalCatMatrix 5 7) [] [] [] []) :=
  ⟨(block_seed_parity_amended 3 [4, 5] [6, 7] [true] [false] (by omega)).1 (by decide),
   (block_seed_parity_amended 2 [5, 7] [] [] [] (by omega)).2 (by decide)⟩

/-! ### Parameter count contract of the block algorithm -/

/-- C6 counterexample. For `dim = 3` with `diag` and `off_diag` of combined
length 4 (but swap sequences of length 1 each), the claim's criterion
`len(diag) + len(off_diag) ≠ iterations*2 + dim²//2` predicts a `SizeMismatch`,
yet the code succeeds: it counts the swap sequences too. -/
theorem block_check_parameters_counterexample :
    blockCheckParameters 3 [1, 1] [1, 1] [true] [false] = .ok 1 ∧
    ([1, 1].length + [1, 1].length : ℕ) ≠ ((3 - 1) / 2) * 2 + 3 ^ 2 / 2 := by
  constructor
  · rfl
  · decide

/-- C6 amended. For `dim ≥ 2`, `check_parameters` fails with `SizeMismatch`
exactly when the combined length of all four sequences (`diag`, `off_diag`,
`swap_diag`, `swap_off_diag`) differs from `iterations*2 + dim²//2`, reporting
both the required and the actual count; otherwise it returns
`iterations = (dim-1)//2`. For `dim = 2` with `diag = [p, q]` and the other
sequences empty it returns 0, the required size being 2. -/
theorem block_check_parameters_amended :
    (∀ (dim : ℕ) (diag off : List ℤ) (s1 s2 : List Bool), 2 ≤ dim →
      (diag.length + off.length + s1.length + s2.length
          ≠ ((dim - 1) / 2) * 2 + dim ^ 2 / 2 →
        blockCheckParameters dim diag off s1 s2
          = .error (.sizeMismatch (((dim - 1) / 2) * 2 + dim ^ 2 / 2)
              (diag.length + off.length + s1.length + s2.length))) ∧
      (diag.length + off.length + s1.length + s2.length
          = ((dim - 1) / 2) * 2 + dim ^ 2 / 2 →
        blockCheckParameters dim diag off s1 s2 = .ok ((dim - 1) / 2))) ∧
    (∀ p q : ℤ, blockCheckParameters 2 [p, q] [] [] [] = .ok 0 ∧
      ((2 - 1) / 2) * 2 + 2 ^ 2 / 2 = 2) := by
  constructor
  · intro dim diag off s1 s2 hdim
    constructor
    · intro hne
      rw [blockCheckParameters, if_neg (by omega), if_pos (by omega)]
    · intro heq
      rw [blockCheckParameters, if_neg (by omega), if_neg (by omega)]
  · intro p q
    exact ⟨rfl, rfl⟩

theorem block_check_parameters_amended_witness :
    (blockCheckParameters 3 [1, 1] [1, 1] [] [] = .error (.sizeMismatch 6 4)) ∧
    (blockCheckParameters 3 [1, 1] [1, 1] [true] [false] = .ok 1) ∧
    (blockCheckParameters 2 [9, 9] [] [] [] = .ok 0) :=
  ⟨((block_check_parameters_amended.1 3 [1, 1] [1, 1] [] [] (by omega)).1 (by decide)),
   ((block_check_parameters_amended.1 3 [1, 1] [1, 1] [true] [false] (by omega)).2 (by decide)),
   (block_check_parameters_amended.2 9 9).1⟩

end NdCat

namespace NdCat

/-! ### Laplace extension: determinant via cofactor expansion -/

theorem laplaceCandidate_submatrix {n : ℕ} (M : Matrix (Fin n) (Fin n) ℤ)
    (row col : Fin n → ℤ) (rl cl : Fin (n + 1)) (v : ℤ) :
    (laplaceCandidate M row col rl cl v).submatrix rl.succAbove cl.succAbove = M := by
  ext i j
  simp [laplaceCandidate, Fin.insertNth_apply_succAbove]

theorem laplaceCandidate_apply_same {n : ℕ} (M : Matrix (Fin n) (Fin n) ℤ)
    (row col : Fin n → ℤ) (rl cl : Fin (n + 1)) (v : ℤ) :
    laplaceCandidate M row col rl cl v rl cl = v := by
  simp [laplaceCandidate, Fin.insertNth_apply_same]

theorem laplaceCandidate_col_indep {n : ℕ} (M : Matrix (Fin n) (Fin n) ℤ)
    (row col : Fin n → ℤ) (rl cl : Fin (n + 1)) (v w : ℤ) (i : Fin (n + 1))
    (j : Fin n) :
    laplaceCandidate M row col rl cl v i (cl.succAbove j)
      = laplaceCandidate M row col rl cl w i (cl.succAbove j) := by
  by_cases hi : i = rl
  · subst hi
    simp [laplaceCandidate, Fin.insertNth_apply_same, Fin.insertNth_apply_succAbove]
  · obtain ⟨i', rfl⟩ := Fin.exists_succAbove_eq hi
    simp [laplaceCandidate, Fin.insertNth_apply_succAbove]

theorem laplaceCandidate_row_indep {n : ℕ} (M : Matrix (Fin n) (Fin n) ℤ)
    (row col : Fin n → ℤ) (rl cl : Fin (n + 1)) (v w : ℤ) {i : Fin (n + 1)}
    (hi : i ≠ rl) :
    laplaceCandidate M row col rl cl v i cl
      = laplaceCandidate M row col rl cl w i cl := by
  obtain ⟨i', rfl⟩ := Fin.exists_succAbove_eq hi
  simp [laplaceCandidate, Fin.insertNth_apply_succAbove]

/-- Laplace expansion of the candidate's determinant along the inserted
column: the new cell contributes through the minor `M`, every other entry of
the column contributes its cofactor-sum term, which does not depend on the
value placed at the new cell. -/
theorem laplaceCandidate_det {n : ℕ} (M : Matrix (Fin n) (Fin n) ℤ)
    (row col : Fin n → ℤ) (rl cl : Fin (n + 1)) (v : ℤ) :
    (laplaceCandidate M row col rl cl v).det
      = (-1) ^ ((rl : ℕ) + (cl : ℕ)) * v * M.det
        + laplaceCofactors (laplaceCandidate M row col rl cl 0) rl cl := by
  rw [Matrix.det_succ_column (laplaceCandidate M row col rl cl v) cl,
    ← Finset.add_sum_erase Finset.univ _ (Finset.mem_univ rl),
    laplaceCandidate_apply_same, laplaceCandidate_submatrix]
  congr 1
  rw [laplaceCofactors]
  refine Finset.sum_congr rfl ?_
  intro i hi
  have hne : i ≠ rl := Finset.ne_of_mem_erase hi
  have h1 : laplaceCandidate M row col rl cl v i cl
      = laplaceCandidate M row col rl cl 0 i cl :=
    laplaceCandidate_row_indep M row col rl cl v 0 hne
  have h2 : (laplaceCandidate M row col rl cl v).submatrix i.succAbove cl.succAbove
      = (laplaceCandidate M row col rl cl 0).submatrix i.succAbove cl.succAbove := by
    ext a b
    simp only [Matrix.submatrix_apply]
    exact laplaceCandidate_col_indep M row col rl cl v 0 _ b
  rw [h1, h2, laplaceCofactor]
  ring

/-- C1. For every `n×n` integer matrix `M` of determinant 1, all insertion
indices `row_loc, col_loc` in `[0, n]`, and any integer row and column data,
`LaplaceExtension.extend` returns an `(n+1)×(n+1)` integer matrix of
determinant exactly 1, and its new diagonal entry equals
`(-1)^(row_loc+col_loc) * (1 - S)` where `S` is the cofactor sum along column
`col_loc` of the candidate matrix excluding row `row_loc`. -/
theorem laplace_extend_unimodular :
    ∀ (n : ℕ) (M : Matrix (Fin n) (Fin n) ℤ) (row col : Fin n → ℤ)
      (rl cl : Fin (n + 1)), M.det = 1 →
      (laplaceExtend M row col rl cl).det = 1 ∧
      laplaceExtend M row col rl cl rl cl
        = (-1) ^ ((rl : ℕ) + (cl : ℕ))
          * (1 - laplaceCofactors (laplaceCandidate M row col rl cl 0) rl cl) := by
  intro n M row col rl cl hdet
  constructor
  · rw [laplaceExtend, laplaceCandidate_det, hdet]
    have hsq : (-1 : ℤ) ^ ((rl : ℕ) + (cl : ℕ)) * (-1) ^ ((rl : ℕ) + (cl : ℕ)) = 1 := by
      rw [← pow_add]
      exact Even.neg_one_pow ⟨(rl : ℕ) + (cl : ℕ), by ring⟩
    calc (-1 : ℤ) ^ ((rl : ℕ) + (cl : ℕ))
            * ((-1) ^ ((rl : ℕ) + (cl : ℕ))
              * (1 - laplaceCofactors (laplaceCandidate M row col rl cl 0) rl cl)) * 1
          + laplaceCofactors (laplaceCandidate M row col rl cl 0) rl cl
        = (-1 : ℤ) ^ ((rl : ℕ) + (cl : ℕ)) * (-1) ^ ((rl : ℕ) + (cl : ℕ))
            * (1 - laplaceCofactors (laplaceCandidate M row col rl cl 0) rl cl)
          + laplaceCofactors (laplaceCandidate M row col rl cl 0) rl cl := by ring
      _ = 1 := by rw [hsq]; ring
  · exact laplaceCandidate_apply_same M row col rl cl _

theorem laplace_extend_unimodular_witness :
    Matrix.det !![(1 : ℤ)] = 1 ∧
    (laplaceExtend !![(1 : ℤ)] ![5] ![7] 0 1).det = 1 ∧
    laplaceExtend !![(1 : ℤ)] ![5] ![7] 0 1 0 1
      = (-1) ^ (((0 : Fin 2) : ℕ) + ((1 : Fin 2) : ℕ))
        * (1 - laplaceCofactors (laplaceCandidate !![(1 : ℤ)] ![5] ![7] 0 1 0) 0 1) :=
  ⟨by rw [Matrix.det_fin_one_of],
   (laplace_extend_unimodular 1 !![(1 : ℤ)] ![5] ![7] 0 1
     (by rw [Matrix.det_fin_one_of])).1,
   (laplace_extend_unimodular 1 !![(1 : ℤ)] ![5] ![7] 0 1
     (by rw [Matrix.det_fin_one_of])).2⟩

end NdCat

namespace NdCat

/-! ### `split_sequence` versus `random`'s packing -/

/-- C7 evaluation at the failing input. For the block algorithm at `dim = 2`,
`random` draws chunks of sizes 2, 0, 0, 0, whose concatenation is the
two-element sequence itself; `split_sequence` returns the whole input as the
fourth chunk (Python `data[-0:]` is `data[0:]`), not the empty
`swap_off_diag` chunk, so it is not a left inverse of the packing. The
Laplace splitter at `dim = 2` does reconstruct its four chunks. -/
theorem split_sequence_roundtrip_eval :
    blockSplitSequence 2 ([3, 4] : List ℤ) = ([3, 4], [], [], [3, 4]) ∧
    blockSplitSequence 2 ([3, 4] : List ℤ) ≠ ([3, 4], [], [], []) ∧
    laplaceSplitSequence 2 ([6, 7, 1, 0] : List ℤ) = ([6], [7], [1], [0]) := by
  refine ⟨?_, ?_, ?_⟩ <;> decide

/-! ### The construction entry point's dispatch -/

/-- C8 evaluation at the failing input. `CatMatrix.create(2, "block", ...)`
forwards `(algorithm, dim)` into `CatGenerator.create`'s `(dim, algorithm)`
slots, so the dictionary membership test sees the integer `2` and raises
`UnknownAlgorithm` even for the valid name; calling `CatGenerator.create`
directly with the slots in signature order dispatches to the block
algorithm. -/
theorem create_entry_point_eval :
    catMatrixCreate 2 "block" (.block [1, 1] [] [] [])
      = .error (.unknownAlgorithm (.int 2)) ∧
    catGeneratorCreate (.int 2) (.str "block") (.block [1, 1] [] [] [])
      = blockCreate 2 [1, 1] [] [] [] := by
  constructor
  · rfl
  · rfl

/-! ### The matrix wrapper's mutating `extend` and the `is_cat` gate -/

/-- C9 evaluation at the failing input. Starting from the valid cat matrix
`[[1,1],[1,2]]`, `CatMatrix.extend("block", [1,1], [1,1], False, False)`
stores the 4×3 array `[[2,1,1],[1,1,1],[0,1,1],[0,1,2]]` produced by the
block extension, an array the unimodularity predicate rejects — no
`InvalidMatrix` error is raised because the assignment bypasses the `matrix`
setter. -/
theorem matrix_extend_unchecked_eval :
    isCatL [[1, 1], [1, 2]] = true ∧
    catMatrixExtendBlock [[1, 1], [1, 2]] [1, 1] [1, 1] false false
      = [[2, 1, 1], [1, 1, 1], [0, 1, 1], [0, 1, 2]] ∧
    isCatL [[2, 1, 1], [1, 1, 1], [0, 1, 1], [0, 1, 2]] = false := by
  refine ⟨?_, ?_, ?_⟩ <;> decide

end NdCat
